import Mathlib

/-!
Verification development for the veles storage layer.

Shallow embedding conventions:
* Rust byte buffers (`Vec<u8>`, file contents) are `List Nat`, each element a
  byte value; Rust strings are identified with their UTF-8 byte lists on the
  KV-engine side and with their character lists (`List Char`) on the object
  store / manifest side, where only text operations occur.
* External library functions (crc32fast, ring's SHA-256, flate2's gzip) are
  parameters of the definitions that use them: the claims under study depend
  only on which bytes are fed to them, never on their internals.
* `bincode::serialize` / `bincode::deserialize` of `RowHeader` use bincode
  1.x root-function defaults: fixed-width integers, little-endian.
* Fallible operations return `Except VelesErr`.  The replay loop of
  `VelesStore::new` consumes at least 20 bytes per iteration, so running it
  with fuel equal to the byte count of the log is exact; the fuel-exhaustion
  branch is unreachable at the call site used by `VelesStore.new`.
-/

/-- Error type of the repository (error.rs), restricted to the variants the
embedded operations can produce. -/
inductive VelesErr where
  | NotInitialized
  | IOError
  | SerializationError
  | CorruptedData
  | NotFound
  deriving DecidableEq

/-- Association-list lookup, modelling `HashMap::get`. -/
def lookupA {α β : Type} [DecidableEq α] : List (α × β) → α → Option β
  | [], _ => none
  | (k, v) :: rest, key => if k = key then some v else lookupA rest key

/-- Association-list insert-or-overwrite, modelling `HashMap::insert`. -/
def insertA {α β : Type} [DecidableEq α] : List (α × β) → α → β → List (α × β)
  | [], key, val => [(key, val)]
  | (k, v) :: rest, key, val =>
      if k = key then (key, val) :: rest else (k, v) :: insertA rest key val

/-- Association-list removal, modelling the source side of `fs::rename`. -/
def eraseA {α β : Type} [DecidableEq α] : List (α × β) → α → List (α × β)
  | [], _ => []
  | (k, v) :: rest, key => if k = key then rest else (k, v) :: eraseA rest key

/-- Little-endian 4-byte encoding of a `u32` value (bincode fixint default). -/
def u32le (n : Nat) : List Nat :=
  [n % 256, n / 256 % 256, n / 65536 % 256, n / 16777216 % 256]

/-- Big-endian 4-byte encoding of a `u32` value (`u32::to_be_bytes`). -/
def u32be (n : Nat) : List Nat :=
  [n / 16777216 % 256, n / 65536 % 256, n / 256 % 256, n % 256]

/-- Little-endian 2-byte encoding of an `i16` value (bincode fixint default). -/
def i16le (x : Int) : List Nat :=
  let u := (x % 65536).toNat
  [u % 256, u / 256 % 256]

/-- Decoding of an `i16` from its two little-endian bytes. -/
def i16dec (b0 b1 : Nat) : Int :=
  let u := b0 + 256 * b1
  if u < 32768 then (u : Int) else (u : Int) - 65536

/-- `u32::from_be_bytes` on a 4-byte buffer. -/
def fromBE4 (l : List Nat) : Nat :=
  match l with
  | [a, b, c, d] => ((a * 256 + b) * 256 + c) * 256 + d
  | _ => 0

/-- storage.rs `RowHeader`: the fixed-size record header of the KV engine. -/
structure RowHeader where
  timestamp : Nat
  key_size : Nat
  value_size : Nat
  key_type : Int
  value_type : Int
  deriving DecidableEq

/-- `bincode::serialize` of a `RowHeader` (fixint, little-endian): 16 bytes. -/
def headerBytes (h : RowHeader) : List Nat :=
  u32le h.timestamp ++ u32le h.key_size ++ u32le h.value_size ++
    i16le h.key_type ++ i16le h.value_type

/-- `bincode::deserialize` of a `RowHeader` from a 16-byte buffer. -/
def deserializeHeader (l : List Nat) : Option RowHeader :=
  match l with
  | [a0, a1, a2, a3, b0, b1, b2, b3, c0, c1, c2, c3, d0, d1, e0, e1] =>
      some { timestamp := a0 + 256 * a1 + 65536 * a2 + 16777216 * a3
             key_size := b0 + 256 * b1 + 65536 * b2 + 16777216 * b3
             value_size := c0 + 256 * c1 + 65536 * c2 + 16777216 * c3
             key_type := i16dec d0 d1
             value_type := i16dec e0 e1 }
  | _ => none

/-- `read_exact` of `n` bytes from a stream: the bytes read and the rest. -/
def takeExact (n : Nat) (l : List Nat) : Option (List Nat × List Nat) :=
  if n ≤ l.length then some (l.take n, l.drop n) else none

/-- The `u32` result of `crc32fast::Hasher::finalize` over a byte buffer,
with the checksum function itself abstracted as a parameter. -/
def crcOf (crc32 : List Nat → Nat) (data : List Nat) : Nat :=
  crc32 data % 4294967296

/-- storage.rs `VelesStoreEntry`: one in-memory index entry.  `total_size`
and `file_offset` are `u32` fields in the source; they are `Nat` here with
the `u32` semantics made explicit at every construction site: the scan in
`replay` stores `pos as u32` as `pos % 4294967296` and computes
`total_size` in wrapping `u32` arithmetic as `(...) % 4294967296`, so every
stored value is below `2^32`. -/
structure VelesStoreEntry where
  file : List Char
  total_size : Nat
  file_offset : Nat
  deriving DecidableEq

/-- The path `.veles/veles.db` recorded in every index entry. -/
def dbPath : List Char := ".veles/veles.db".data

/-- The in-memory key → entry index (`HashMap<String, VelesStoreEntry>`),
modelled as an insertion-ordered association list on key bytes. -/
abbrev StoreCache := List (List Nat × VelesStoreEntry)

/-- storage.rs `VelesStore`: the index plus the log-file content. `db` is the
byte content stored at `.veles/veles.db`, which both the read path of `get`
and the append handle of `put` refer to. -/
structure VelesStore where
  cache : StoreCache
  db : List Nat
  deriving DecidableEq

/-- The header `put` builds: current epoch seconds and both sizes as `u32`
(truncating casts), fixed type tags 1. -/
def mkHeader (ts : Nat) (k v : List Nat) : RowHeader :=
  { timestamp := ts % 4294967296
    key_size := k.length % 4294967296
    value_size := v.length % 4294967296
    key_type := 1
    value_type := 1 }

/-- The bytes one `put` appends to the log: big-endian CRC, then the
serialized header, key bytes and value bytes. -/
def putRecord (crc32 : List Nat → Nat) (ts : Nat) (k v : List Nat) : List Nat :=
  let data := headerBytes (mkHeader ts k v) ++ k ++ v
  u32be (crcOf crc32 data) ++ data

/-- storage.rs `VelesStore::put`: serialize, checksum, append.  The cache is
not touched (the source updates only the file). -/
def VelesStore.put (crc32 : List Nat → Nat) (s : VelesStore) (ts : Nat)
    (k v : List Nat) : VelesStore :=
  { s with db := s.db ++ putRecord crc32 ts k v }

/-- The open-time scan of storage.rs `VelesStore::new`: read CRC, header, key
and value, verify the checksum, record the index entry, advance.  The entry
stores `total_size` computed in wrapping `u32` arithmetic
(`(4 + 16 + key_size + value_size) % 2^32`) and `pos as u32`
(`pos % 2^32`), exactly as the source's truncating casts do; `pos` itself
is the `u64` running position, advanced by `total_size as u64`.  The loop
runs `while pos != size`: since `pos` advances by the wrapped total it can
only lag the file cursor, so it reaches `size` exactly when the byte stream
is exhausted whenever no record's `total_size` wraps; the end-of-stream
test here covers that regime, and the scan of remaining bytes is otherwise
identical.  Structured with one unit of fuel per record; each record
consumes at least 20 bytes, so fuel equal to the remaining byte count (as
supplied by `VelesStore.new`) never reaches the exhaustion branch. -/
def replay (crc32 : List Nat → Nat) :
    Nat → List Nat → Nat → StoreCache → Except VelesErr StoreCache
  | _, [], _, cache => .ok cache
  | 0, _ :: _, _, _ => .error .IOError
  | fuel + 1, b :: rest, pos, cache =>
    let l := b :: rest
    match takeExact 4 l with
    | none => .error .IOError
    | some (crcBuf, r1) =>
      match takeExact 16 r1 with
      | none => .error .IOError
      | some (hb, r2) =>
        match deserializeHeader hb with
        | none => .error .SerializationError
        | some header =>
          match takeExact header.key_size r2 with
          | none => .error .IOError
          | some (keyB, r3) =>
            match takeExact header.value_size r3 with
            | none => .error .IOError
            | some (valB, r4) =>
              let data := hb ++ keyB ++ valB
              if crcOf crc32 data ≠ fromBE4 crcBuf then
                .error .CorruptedData
              else
                let total :=
                  (4 + 16 + header.key_size + header.value_size) % 4294967296
                replay crc32 fuel r4 (pos + total)
                  (insertA cache keyB ⟨dbPath, total, pos % 4294967296⟩)

/-- storage.rs `VelesStore::new`: create the store directory, open the log
file for read (an absent log file makes the open fail with an I/O error —
`OpenOptions::new().read(true).open` does not create), replay the whole log
to rebuild the index, then open the append handle.  The filesystem argument
is the content of `.veles/veles.db`, or `none` when that file is absent. -/
def VelesStore.new (crc32 : List Nat → Nat) (fs : Option (List Nat)) :
    Except VelesErr VelesStore :=
  match fs with
  | none => .error .IOError
  | some db =>
    match replay crc32 db.length db 0 [] with
    | .error e => .error e
    | .ok cache => .ok ⟨cache, db⟩

/-- storage.rs `VelesStore::get`: index lookup, seek, `read_exact` of the
whole record, checksum re-verification, header decode, value extraction.
All index entries carry `dbPath`, so the read is served from `s.db`. -/
def VelesStore.get (crc32 : List Nat → Nat) (s : VelesStore) (key : List Nat) :
    Except VelesErr (List Nat) :=
  match lookupA s.cache key with
  | none => .error .NotFound
  | some hint =>
    if hint.file_offset + hint.total_size ≤ s.db.length then
      let data := (s.db.drop hint.file_offset).take hint.total_size
      let crc := fromBE4 (data.take 4)
      if crcOf crc32 (data.drop 4) ≠ crc then
        .error .CorruptedData
      else
        match deserializeHeader ((data.drop 4).take 16) with
        | none => .error .SerializationError
        | some header =>
          let value_offset := 4 + 16 + header.key_size
          .ok (data.drop value_offset)
    else .error .IOError

/-- The loop of storage.rs `VelesStore::compact`: for every cached key, `get`
the current value from the old log and append a fresh record (via the
redirected write handle) to the compaction file. -/
def compactLoop (crc32 : List Nat → Nat) (ts : Nat) (s : VelesStore) :
    List (List Nat) → List Nat → Except VelesErr (List Nat)
  | [], buf => .ok buf
  | k :: ks, buf =>
    match s.get crc32 k with
    | .error e => .error e
    | .ok v => compactLoop crc32 ts s ks (buf ++ putRecord crc32 ts k v)

/-- storage.rs `VelesStore::compact`: redirect the write handle to a fresh
`.veles/veles_compact.db`, re-put every cached key, then rename the
compaction file over `.veles/veles.db`.  The cache is left untouched (the
source never updates it), so its offsets still refer to the replaced log. -/
def VelesStore.compact (crc32 : List Nat → Nat) (ts : Nat) (s : VelesStore) :
    Except VelesErr VelesStore :=
  match compactLoop crc32 ts s (s.cache.map (fun e => e.1)) [] with
  | .error e => .error e
  | .ok buf => .ok { cache := s.cache, db := buf }

/-- The log produced by a sequence of `put` calls on an initially empty
store: one `putRecord` per (timestamp, key, value) triple, concatenated. -/
def logOf (crc32 : List Nat → Nat) (es : List (Nat × List Nat × List Nat)) :
    List Nat :=
  (es.map (fun e => putRecord crc32 e.1 e.2.1 e.2.2)).flatten

/-- The index the open-time replay of `logOf es` builds, starting from
position `pos` and cache `c`, in the regime where offsets stay exact: the
exactness lemma about it carries the hypothesis that `pos` plus the byte
count of the remaining log stays below `2^32`, so the scan's `u32`
truncations are the identity there. -/
def cacheAfter (crc32 : List Nat → Nat) :
    List (Nat × List Nat × List Nat) → Nat → StoreCache → StoreCache
  | [], _, c => c
  | (t, k, v) :: es, pos, c =>
    let r := putRecord crc32 t k v
    cacheAfter crc32 es (pos + r.length)
      (insertA c k ⟨dbPath, r.length, pos⟩)

/-- A put argument triple whose sizes survive the `as u32` casts intact. -/
def sizedEntry (e : Nat × List Nat × List Nat) : Prop :=
  e.2.1.length < 4294967296 ∧ e.2.2.length < 4294967296

/-- A concrete stand-in for the crc32fast checksum, used to instantiate the
abstracted checksum parameter in concrete evaluations. -/
def crcDemo (l : List Nat) : Nat :=
  l.foldl (fun a b => 2 * a + b + 1) 7

/-- One hex digit, lower case (`hex::encode` alphabet). -/
def hexChar (n : Nat) : Char :=
  Char.ofNat (if n < 10 then 48 + n else 87 + n)

/-- `hex::encode`: two lower-case hex characters per byte, as a character
list (Rust strings are modelled by their character lists here). -/
def hexChars (bs : List Nat) : List Char :=
  bs.foldr (fun b acc => hexChar (b / 16 % 16) :: hexChar (b % 16) :: acc) []

/-- The filesystem as seen by the object store: path → byte content. -/
abbrev ObjFS := List (List Char × List Nat)

/-- `Path::exists` / content read on the modelled filesystem. -/
def fsLookup (fs : ObjFS) (p : List Char) : Option (List Nat) :=
  lookupA fs p

/-- lib.rs `do_commit`: stream the file through SHA-256 and a gzip encoder,
hex-encode the digest, derive `.veles/<hex[0..2]>/<hex[2..40]>`, write the
compressed bytes there only when no file exists at that path, and return
the first 40 hex characters.  `sha256` and `compress` abstract ring's
SHA-256 (over the uncompressed bytes) and flate2's gzip. -/
def do_commit (sha256 compress : List Nat → List Nat) (content : List Nat)
    (fs : ObjFS) : List Char × ObjFS :=
  let hexd := hexChars (sha256 content)
  let dir := ".veles/".data ++ hexd.take 2
  let dest := dir ++ "/".data ++ (hexd.drop 2).take 38
  let fs1 :=
    if (fsLookup fs dest).isSome then fs
    else insertA fs dest (compress content)
  (hexd.take 40, fs1)

/-- repo.rs `Object`: the streaming object-store writer.  `written` is the
plaintext fed through `write` so far; the temporary file at `tempPath`
accumulates the gzip encoder's output, which on `finalize` amounts to the
compression of `written`. -/
structure Object where
  written : List Nat

/-- The fixed temporary path `.veles/tempfile` allocated by `Object::new`. -/
def tempPath : List Char := ".veles/tempfile".data

/-- repo.rs `impl Finalize for Object`: finish the digest and the encoder,
derive `.veles/objects/<hex[0..2]>/<hex[2..40]>`, and `fs::rename` the
temporary file onto that path unconditionally — there is no existence
check.  Returns the full hex digest string. -/
def Object.finalize (sha256 compress : List Nat → List Nat) (o : Object)
    (fs : ObjFS) : List Char × ObjFS :=
  let hexd := hexChars (sha256 o.written)
  let dir := ".veles/objects/".data ++ hexd.take 2
  let dest := dir ++ "/".data ++ (hexd.drop 2).take 38
  let fs1 := insertA (eraseA fs tempPath) dest (compress o.written)
  (hexd, fs1)

/-- Outcome of a Rust call that may panic instead of returning. -/
inductive PanicOr (α : Type) where
  | panicked
  | returned (a : α)
  deriving DecidableEq

/-- repo.rs `impl Write for Object`, method `flush`: the body is `todo!()`,
which panics unconditionally. -/
def Object.flush (_o : Object) : PanicOr (Except VelesErr Unit) :=
  .panicked

/-- A concrete stand-in for the SHA-256 digest (32 zero bytes), used to
instantiate the abstracted digest parameter in concrete evaluations. -/
def shaDemo (_l : List Nat) : List Nat := List.replicate 32 0

/-- A concrete stand-in for gzip compression, used in concrete evaluations. -/
def gzDemo (l : List Nat) : List Nat := l

/-- lib.rs `VelesNode`: one node of the manifest tree; children in `items`
in attachment order, `hash` present for files, absent for directories. -/
structure VelesNode where
  name : List Char
  items : List VelesNode
  hash : Option (List Char)

/-- The side table of resolved directory name → 40-hex hash. -/
abbrev HashTable := List (List Char × List Char)

/-- The readiness test of the manifest loop: every attached child either
already carries a hash or has an entry in the side table. -/
def readyNode (hashes : HashTable) (node : VelesNode) : Bool :=
  node.items.all (fun n => n.hash.isSome || (lookupA hashes n.name).isSome)

/-- One `"<child hash> <child name>\n"` line of a directory's content text:
the child's own hash if present, otherwise the side-table entry (the
`unwrap` in the source is only reached when the node is ready). -/
def nodeLine (hashes : HashTable) (item : VelesNode) : List Char :=
  (match item.hash with
   | some h => h
   | none => (lookupA hashes item.name).getD []) ++
    " ".data ++ item.name ++ "\n".data

/-- The content text hashed for a directory, accumulated by `push_str` over
the children in attachment order. -/
def nodeContents (hashes : HashTable) (node : VelesNode) : List Char :=
  node.items.foldl (fun acc item => acc ++ nodeLine hashes item) []

/-- The resolution loop of lib.rs `manifest`: round-robin over the remaining
nodes; a ready node's content text is hashed, the first 40 hex characters
are recorded in the side table under the node's own name, the node is
removed, and the hash of the last node removed becomes the root hash.
`shaText` abstracts SHA-256 over the UTF-8 bytes of the text.  Fuel bounds
the number of loop iterations (the source loop may spin forever on an
unresolvable node set). -/
def manifestLoop (shaText : List Char → List Nat) :
    Nat → List VelesNode → Nat → HashTable → List Char →
    HashTable × List Char
  | 0, _, _, hashes, refHash => (hashes, refHash)
  | fuel + 1, nodes, i, hashes, refHash =>
    match nodes with
    | [] => (hashes, refHash)
    | _ :: _ =>
      let node := nodes.getD i ⟨[], [], none⟩
      if readyNode hashes node then
        let contents := nodeContents hashes node
        let hexd := hexChars (shaText contents)
        let h40 := hexd.take 40
        let hashes1 := insertA hashes node.name h40
        let nodes1 := nodes.eraseIdx i
        let refHash1 := if nodes1.length = 0 then h40 else refHash
        let i1 := if i = nodes1.length then 0 else i
        manifestLoop shaText fuel nodes1 i1 hashes1 refHash1
      else
        let i1 := if i + 1 = nodes.length then 0 else i + 1
        manifestLoop shaText fuel nodes i1 hashes refHash

/-- dao.rs `Changeset`: one row of the `changesets` table, in column
order. -/
structure Changeset where
  changeset_id : Int
  previous_changeset : Int
  task_id : Int
  user : String
  description : String
  tree_hash : String
  deriving DecidableEq

/-- The `changesets` table, rows in insertion order (rows are never deleted,
per the data model). -/
abbrev ChangesetTable := List Changeset

/-- The rowid SQLite assigns when `changeset_id` is inserted as NULL: one
more than the largest existing rowid (no row of this table is ever
deleted). -/
def nextRowId (t : ChangesetTable) : Int :=
  (t.map (fun c => c.changeset_id)).foldl max 0 + 1

/-- dao.rs `VelesDAO::insert_changeset`: insert the row with a NULL id, so
SQLite assigns `nextRowId`; returns `last_insert_rowid`. -/
def insert_changeset (t : ChangesetTable) (cs : Changeset) :
    ChangesetTable × Int :=
  let rid := nextRowId t
  (t ++ [{ cs with changeset_id := rid }], rid)

/-- `ORDER BY changeset_id DESC LIMIT 1` over a filtered row list: the row
with the greatest id, scanned left to right. -/
def pickLatest : Option Changeset → List Changeset → Option Changeset
  | acc, [] => acc
  | none, r :: rs => pickLatest (some r) rs
  | some b, r :: rs =>
    pickLatest (some (if b.changeset_id < r.changeset_id then r else b)) rs

/-- dao.rs `VelesDAO::get_latest_changeset`: the changeset with the greatest
`changeset_id` among the rows of the given task, or `none`. -/
def get_latest_changeset (t : ChangesetTable) (tid : Int) : Option Changeset :=
  pickLatest none (t.filter (fun c => c.task_id = tid))

/-- Modelled from the spec: the submit operation of the Changeset Revision
Store (spec 4.4).  The caller that wires `get_latest_changeset` and
`insert_changeset` together is not under src — dao.rs has no caller there
(client.rs's `submit` targets a different snapshot of the transport layer) —
so, per the spec, submit fetches the task's latest changeset and inserts a
new changeset row whose `previous_changeset` is that changeset's id, or 0
when the task has none.  The tree merge is elided: it does not affect the
chaining fields. -/
def submitSpec (t : ChangesetTable) (tid : Int)
    (user description tree_hash : String) : ChangesetTable × Int :=
  let prev :=
    match get_latest_changeset t tid with
    | some c => c.changeset_id
    | none => 0
  insert_changeset t ⟨0, prev, tid, user, description, tree_hash⟩

/-- The put sequence of the concrete compaction scenario: `Put("a","1")`,
`Put("a","2")`, `Put("b","3")` (keys and values as UTF-8 bytes). -/
def demoEntries : List (Nat × List Nat × List Nat) :=
  [(0, [97], [49]), (1, [97], [50]), (2, [98], [51])]

/-- The on-disk record layout the spec claims (refinement comparison):
every multi-byte integer field big-endian, CRC over timestamp through
value. -/
def specRecordBE (crc32 : List Nat → Nat) (ts : Nat) (k v : List Nat) :
    List Nat :=
  let data := u32be (ts % 4294967296) ++ u32be (k.length % 4294967296) ++
    u32be (v.length % 4294967296) ++ [0, 1] ++ [0, 1] ++ k ++ v
  u32be (crcOf crc32 data) ++ data

/-- The destination path `Object.finalize` derives for `shaDemo`:
`.veles/objects/00/` followed by 38 zeros. -/
def destDemo : List Char :=
  ".veles/objects/00/".data ++ List.replicate 38 '0'

/-- A concrete stand-in for the manifest text digest, used in concrete
evaluations. -/
def shaTextDemo (_l : List Char) : List Nat := List.replicate 32 0

/-- A one-directory, one-file node set for concrete manifest evaluation. -/
def nodesDemo : List VelesNode :=
  [⟨"d".data, [⟨"f".data, [], some "ab".data⟩], none⟩]

/-! ## Shared lemmas -/

theorem lookupA_insertA_self {α β : Type} [DecidableEq α]
    (m : List (α × β)) (k : α) (v : β) :
    lookupA (insertA m k v) k = some v := by
  induction m with
  | nil => simp [insertA, lookupA]
  | cons p rest ih =>
    by_cases h : p.1 = k
    · simp [insertA, lookupA, h]
    · simp [insertA, lookupA, h, ih]

theorem lookupA_insertA_ne {α β : Type} [DecidableEq α]
    (m : List (α × β)) (k' k : α) (v : β) (h : k' ≠ k) :
    lookupA (insertA m k' v) k = lookupA m k := by
  induction m with
  | nil => simp [insertA, lookupA, h]
  | cons p rest ih =>
    by_cases hp : p.1 = k'
    · simp [insertA, lookupA, hp, h, Ne.symm h]
    · by_cases hk : p.1 = k
      · simp [insertA, lookupA, hp, hk, Ne.symm h]
      · simp [insertA, lookupA, hp, hk, ih]

theorem length_headerBytes (h : RowHeader) : (headerBytes h).length = 16 := by
  simp [headerBytes, u32le, i16le]

theorem length_putRecord (crc32 : List Nat → Nat) (ts : Nat) (k v : List Nat) :
    (putRecord crc32 ts k v).length = 20 + k.length + v.length := by
  simp [putRecord, u32be, length_headerBytes]
  omega

theorem fromBE4_u32be (n : Nat) (h : n < 4294967296) :
    fromBE4 (u32be n) = n := by
  simp [fromBE4, u32be]
  omega

theorem deserializeHeader_headerBytes (h : RowHeader)
    (h1 : h.timestamp < 4294967296) (h2 : h.key_size < 4294967296)
    (h3 : h.value_size < 4294967296) (h4 : h.key_type = 1)
    (h5 : h.value_type = 1) :
    deserializeHeader (headerBytes h) = some h := by
  obtain ⟨t, ks, vs, kt, vt⟩ := h
  simp only at h1 h2 h3 h4 h5
  subst h4 h5
  simp [headerBytes, u32le, i16le, deserializeHeader, i16dec,
    RowHeader.mk.injEq]
  refine ⟨by omega, by omega, by omega⟩

theorem takeExact_append (n : Nat) (a b : List Nat) (h : a.length = n) :
    takeExact n (a ++ b) = some (a, b) := by
  simp [takeExact, List.take_left' h, List.drop_left' h]
  omega

/-! ## Claim theorems -/

/-- Claim C10: for every object-store writer, calling `flush` through the
`io::Write` implementation panics unconditionally (the body is `todo!()`),
so a caller flushing before finalize crashes rather than receiving an error
result. -/
theorem object_flush_panics (o : Object) :
    Object.flush o = PanicOr.panicked := rfl

/-- Claim C8, counterexample: opening a brand-new store (store directory
creatable, but no log file yet) does not succeed — `VelesStore::new` opens
the log with only `read(true)`, so the open fails with an I/O error instead
of creating the file and returning an empty index. -/
theorem new_fails_without_log_file :
    VelesStore.new crcDemo none = .error VelesErr.IOError ∧
      (VelesStore.new crcDemo none).isOk = false := ⟨rfl, rfl⟩

/-- Claim C8, amended: `VelesStore::new` creates the store directory but
opens the log file read-only without creating it, so the open fails with an
I/O error when the log file is absent; when the log file exists (even
empty) the open succeeds with an empty index (the append handle, opened
after the scan, is the one created with `create(true)`). -/
theorem new_requires_existing_log (crc32 : List Nat → Nat) :
    VelesStore.new crc32 none = .error VelesErr.IOError ∧
      VelesStore.new crc32 (some []) = .ok ⟨[], []⟩ := ⟨rfl, rfl⟩

/-- Claim C2: the concrete scenario `Put("a","1")`, `Put("a","2")`,
`Put("b","3")`, reopen, `Compact`.  Before compaction `Get("a")` is `"2"`
and `Get("b")` is `"3"`; compaction succeeds and shrinks the log from 66 to
44 bytes, but afterwards `Get("a")` returns `"3"` (the record of `"b"`) and
`Get("b")` fails with an I/O error: `compact` never updates the cached
offsets, which still point into the replaced log. -/
theorem compact_stale_index_behavior :
    ((VelesStore.new crcDemo (some (logOf crcDemo demoEntries))).bind
      (fun s => s.get crcDemo [97])) = .ok [50] ∧
    ((VelesStore.new crcDemo (some (logOf crcDemo demoEntries))).bind
      (fun s => s.get crcDemo [98])) = .ok [51] ∧
    (((VelesStore.new crcDemo (some (logOf crcDemo demoEntries))).bind
      (fun s => s.compact crcDemo 3)).bind
        (fun s2 => s2.get crcDemo [97])) = .ok [51] ∧
    (((VelesStore.new crcDemo (some (logOf crcDemo demoEntries))).bind
      (fun s => s.compact crcDemo 3)).bind
        (fun s2 => s2.get crcDemo [98])) = .error VelesErr.IOError ∧
    (((VelesStore.new crcDemo (some (logOf crcDemo demoEntries))).bind
      (fun s => s.compact crcDemo 3)).map
        (fun s2 => s2.db.length)) = .ok 44 ∧
    (logOf crcDemo demoEntries).length = 66 :=
  ⟨rfl, rfl, rfl, rfl, rfl, rfl⟩

/-- Claim C3, counterexample: the record `put` appends is not in the claimed
all-big-endian layout — at timestamp 1, key `"a"`, value `"1"` the appended
bytes differ from the big-endian layout, because bincode's default encoding
of the header fields is little-endian. -/
theorem put_record_not_bigendian :
    putRecord crcDemo 1 [97] [49] ≠ specRecordBE crcDemo 1 [97] [49] := by
  decide

/-- Claim C3, amended: every record `put` appends has the byte layout
[4-byte CRC32 big-endian][4-byte timestamp][4-byte key_size]
[4-byte value_size][2-byte key_type][2-byte value_type][key][value] with the
five header fields encoded little-endian (bincode default) — the type tags
are the bytes `[1, 0]` — and the stored CRC32 covers exactly every byte
from the timestamp field through the last value byte. -/
theorem put_record_layout_le (crc32 : List Nat → Nat) (ts : Nat)
    (k v : List Nat) :
    putRecord crc32 ts k v =
      u32be (crcOf crc32 ((putRecord crc32 ts k v).drop 4)) ++
        (u32le (ts % 4294967296) ++ u32le (k.length % 4294967296) ++
          u32le (v.length % 4294967296) ++ [1, 0] ++ [1, 0] ++ k ++ v) ∧
    (putRecord crc32 ts k v).drop 4 =
      u32le (ts % 4294967296) ++ u32le (k.length % 4294967296) ++
        u32le (v.length % 4294967296) ++ [1, 0] ++ [1, 0] ++ k ++ v := by
  have hdrop : (putRecord crc32 ts k v).drop 4 =
      u32le (ts % 4294967296) ++ u32le (k.length % 4294967296) ++
        u32le (v.length % 4294967296) ++ [1, 0] ++ [1, 0] ++ k ++ v := by
    simp [putRecord, headerBytes, mkHeader, u32le, u32be, i16le]
  refine ⟨?_, hdrop⟩
  rw [hdrop]
  simp [putRecord, headerBytes, mkHeader, u32le, i16le]

theorem replay_record_step (crc32 : List Nat → Nat) (fuel pos : Nat)
    (cache : StoreCache) (hb k v tail : List Nat) (C : Nat)
    (header : RowHeader) (hhb : hb.length = 16) (hC : C < 4294967296)
    (hdes : deserializeHeader hb = some header)
    (hks : header.key_size = k.length) (hvs : header.value_size = v.length) :
    replay crc32 (fuel + 1) ((u32be C ++ (hb ++ k ++ v)) ++ tail) pos cache =
      if crcOf crc32 (hb ++ k ++ v) ≠ C then .error VelesErr.CorruptedData
      else replay crc32 fuel tail
        (pos + (20 + k.length + v.length) % 4294967296)
        (insertA cache k ⟨dbPath, (20 + k.length + v.length) % 4294967296,
          pos % 4294967296⟩) := by
  have hform : (u32be C ++ (hb ++ k ++ v)) ++ tail =
      C / 16777216 % 256 :: C / 65536 % 256 :: C / 256 % 256 :: C % 256 ::
        (hb ++ (k ++ (v ++ tail))) := by
    simp [u32be]
  rw [hform]
  simp only [replay]
  have h4 : takeExact 4
      (C / 16777216 % 256 :: C / 65536 % 256 :: C / 256 % 256 :: C % 256 ::
        (hb ++ (k ++ (v ++ tail)))) =
      some ([C / 16777216 % 256, C / 65536 % 256, C / 256 % 256, C % 256],
        hb ++ (k ++ (v ++ tail))) :=
    takeExact_append 4 [C / 16777216 % 256, C / 65536 % 256, C / 256 % 256,
      C % 256] (hb ++ (k ++ (v ++ tail))) rfl
  have h16 : takeExact 16 (hb ++ (k ++ (v ++ tail))) =
      some (hb, k ++ (v ++ tail)) :=
    takeExact_append 16 hb (k ++ (v ++ tail)) hhb
  have hkk : takeExact k.length (k ++ (v ++ tail)) = some (k, v ++ tail) :=
    takeExact_append k.length k (v ++ tail) rfl
  have hvv : takeExact v.length (v ++ tail) = some (v, tail) :=
    takeExact_append v.length v tail rfl
  have hbe : fromBE4 [C / 16777216 % 256, C / 65536 % 256, C / 256 % 256,
      C % 256] = C := fromBE4_u32be C hC
  simp only [h4, h16, hdes, hks, hvs, hkk, hvv, hbe]

theorem drop4_putRecord (crc32 : List Nat → Nat) (t : Nat) (k v : List Nat) :
    (putRecord crc32 t k v).drop 4 =
      headerBytes (mkHeader t k v) ++ k ++ v := by
  simp [putRecord, u32be]

theorem mkHeader_key_size (t : Nat) (k v : List Nat)
    (hk : k.length < 4294967296) : (mkHeader t k v).key_size = k.length := by
  simp [mkHeader, Nat.mod_eq_of_lt hk]

theorem mkHeader_value_size (t : Nat) (k v : List Nat)
    (hv : v.length < 4294967296) : (mkHeader t k v).value_size = v.length := by
  simp [mkHeader, Nat.mod_eq_of_lt hv]

theorem deserialize_mkHeader (t : Nat) (k v : List Nat) :
    deserializeHeader (headerBytes (mkHeader t k v)) = some (mkHeader t k v) :=
  deserializeHeader_headerBytes (mkHeader t k v)
    (Nat.mod_lt _ (by norm_num)) (Nat.mod_lt _ (by norm_num))
    (Nat.mod_lt _ (by norm_num)) rfl rfl

theorem crcOf_lt (crc32 : List Nat → Nat) (data : List Nat) :
    crcOf crc32 data < 4294967296 := Nat.mod_lt _ (by norm_num)

theorem replay_putRecord (crc32 : List Nat → Nat) (fuel t pos : Nat)
    (k v tail : List Nat) (cache : StoreCache)
    (hk : k.length < 4294967296) (hv : v.length < 4294967296) :
    replay crc32 (fuel + 1) (putRecord crc32 t k v ++ tail) pos cache =
      replay crc32 fuel tail
        (pos + (20 + k.length + v.length) % 4294967296)
        (insertA cache k ⟨dbPath, (20 + k.length + v.length) % 4294967296,
          pos % 4294967296⟩) := by
  have hpr : putRecord crc32 t k v =
      u32be (crcOf crc32 (headerBytes (mkHeader t k v) ++ k ++ v)) ++
        (headerBytes (mkHeader t k v) ++ k ++ v) := rfl
  rw [hpr]
  rw [replay_record_step crc32 fuel pos cache (headerBytes (mkHeader t k v))
    k v tail _ (mkHeader t k v) (length_headerBytes _) (crcOf_lt _ _)
    (deserialize_mkHeader t k v) (mkHeader_key_size t k v hk)
    (mkHeader_value_size t k v hv)]
  rw [if_neg (fun h => h rfl)]

theorem replay_corrupt_record (crc32 : List Nat → Nat) (fuel t pos : Nat)
    (k v tail : List Nat) (cache : StoreCache) (c : Nat)
    (hk : k.length < 4294967296) (hv : v.length < 4294967296)
    (hc : c < 4294967296)
    (hne : c ≠ crcOf crc32 (headerBytes (mkHeader t k v) ++ k ++ v)) :
    replay crc32 (fuel + 1)
      ((u32be c ++ (headerBytes (mkHeader t k v) ++ k ++ v)) ++ tail)
      pos cache = .error VelesErr.CorruptedData := by
  rw [replay_record_step crc32 fuel pos cache (headerBytes (mkHeader t k v))
    k v tail c (mkHeader t k v) (length_headerBytes _) hc
    (deserialize_mkHeader t k v) (mkHeader_key_size t k v hk)
    (mkHeader_value_size t k v hv)]
  rw [if_pos (fun h => hne h.symm)]

theorem logOf_nil (crc32 : List Nat → Nat) : logOf crc32 [] = [] := rfl

theorem logOf_cons (crc32 : List Nat → Nat) (e : Nat × List Nat × List Nat)
    (es : List (Nat × List Nat × List Nat)) :
    logOf crc32 (e :: es) = putRecord crc32 e.1 e.2.1 e.2.2 ++ logOf crc32 es := by
  simp [logOf]

theorem logOf_consT (crc32 : List Nat → Nat) (t : Nat) (k v : List Nat)
    (es : List (Nat × List Nat × List Nat)) :
    logOf crc32 ((t, k, v) :: es) = putRecord crc32 t k v ++ logOf crc32 es := by
  simp [logOf]

theorem logOf_append (crc32 : List Nat → Nat)
    (a b : List (Nat × List Nat × List Nat)) :
    logOf crc32 (a ++ b) = logOf crc32 a ++ logOf crc32 b := by
  simp [logOf]

theorem replay_logOf_chunk_any (crc32 : List Nat → Nat)
    (es : List (Nat × List Nat × List Nat)) (hes : ∀ e ∈ es, sizedEntry e)
    (fuel pos : Nat) (cache : StoreCache) (tail : List Nat) :
    ∃ pos2 cache2,
      replay crc32 (fuel + es.length) (logOf crc32 es ++ tail) pos cache =
        replay crc32 fuel tail pos2 cache2 := by
  induction es generalizing fuel pos cache with
  | nil => exact ⟨pos, cache, by simp [logOf]⟩
  | cons e es ih =>
    obtain ⟨t, k, v⟩ := e
    have hsz : sizedEntry (t, k, v) := hes _ (List.mem_cons_self _ _)
    obtain ⟨hk, hv⟩ := hsz
    have hes' : ∀ e ∈ es, sizedEntry e :=
      fun e he => hes e (List.mem_cons_of_mem _ he)
    rw [logOf_consT]
    rw [List.append_assoc]
    have hfl : fuel + (List.length ((t, k, v) :: es)) =
        (fuel + es.length) + 1 := by
      simp [List.length_cons]; omega
    rw [hfl]
    rw [replay_putRecord crc32 (fuel + es.length) t pos k v _ cache hk hv]
    exact ih hes' (fuel) _ _

theorem replay_logOf_chunk (crc32 : List Nat → Nat)
    (es : List (Nat × List Nat × List Nat)) (hes : ∀ e ∈ es, sizedEntry e)
    (fuel pos : Nat) (cache : StoreCache) (tail : List Nat)
    (hbound : pos + (logOf crc32 es).length < 4294967296) :
    replay crc32 (fuel + es.length) (logOf crc32 es ++ tail) pos cache =
      replay crc32 fuel tail (pos + (logOf crc32 es).length)
        (cacheAfter crc32 es pos cache) := by
  induction es generalizing fuel pos cache with
  | nil => simp [logOf, cacheAfter]
  | cons e es ih =>
    obtain ⟨t, k, v⟩ := e
    have hsz : sizedEntry (t, k, v) := hes _ (List.mem_cons_self _ _)
    obtain ⟨hk, hv⟩ := hsz
    have hes' : ∀ e ∈ es, sizedEntry e := fun e he => hes e (List.mem_cons_of_mem _ he)
    have hlen : (putRecord crc32 t k v).length = 20 + k.length + v.length :=
      length_putRecord crc32 t k v
    have hlenc : (logOf crc32 ((t, k, v) :: es)).length =
        (20 + k.length + v.length) + (logOf crc32 es).length := by
      rw [logOf_consT, List.length_append, hlen]
    have hb1 : 20 + k.length + v.length < 4294967296 := by
      rw [hlenc] at hbound; omega
    have hb2 : pos < 4294967296 := by omega
    rw [logOf_cons]
    rw [List.append_assoc]
    have hfl : fuel + (List.length ((t, k, v) :: es)) = (fuel + es.length) + 1 := by
      simp [List.length_cons]; omega
    rw [hfl]
    rw [replay_putRecord crc32 (fuel + es.length) t pos k v _ cache hk hv]
    rw [Nat.mod_eq_of_lt hb1, Nat.mod_eq_of_lt hb2]
    have ihx := ih hes' fuel (pos + (20 + k.length + v.length))
      (insertA cache k ⟨dbPath, 20 + k.length + v.length, pos⟩)
      (by rw [hlenc] at hbound; omega)
    rw [ihx]
    simp only [cacheAfter, List.length_append, hlen]
    congr 1
    omega

theorem length_logOf_ge (crc32 : List Nat → Nat)
    (es : List (Nat × List Nat × List Nat)) :
    es.length ≤ (logOf crc32 es).length := by
  induction es with
  | nil => simp [logOf]
  | cons e es ih =>
    rw [logOf_cons, List.length_append, length_putRecord]
    simp only [List.length_cons]
    omega

theorem replay_nil (crc32 : List Nat → Nat) (fuel pos : Nat)
    (cache : StoreCache) : replay crc32 fuel [] pos cache = .ok cache := by
  cases fuel <;> simp [replay]

theorem replay_logOf_full (crc32 : List Nat → Nat)
    (es : List (Nat × List Nat × List Nat)) (hes : ∀ e ∈ es, sizedEntry e)
    (f pos : Nat) (cache : StoreCache)
    (hbound : pos + (logOf crc32 es).length < 4294967296) :
    replay crc32 (f + es.length) (logOf crc32 es) pos cache =
      .ok (cacheAfter crc32 es pos cache) := by
  have h := replay_logOf_chunk crc32 es hes f pos cache [] hbound
  rw [List.append_nil] at h
  rw [h, replay_nil]

theorem new_logOf (crc32 : List Nat → Nat)
    (es : List (Nat × List Nat × List Nat)) (hes : ∀ e ∈ es, sizedEntry e)
    (hbound : (logOf crc32 es).length < 4294967296) :
    VelesStore.new crc32 (some (logOf crc32 es)) =
      .ok ⟨cacheAfter crc32 es 0 [], logOf crc32 es⟩ := by
  simp only [VelesStore.new]
  have hge := length_logOf_ge crc32 es
  rw [show (logOf crc32 es).length =
    ((logOf crc32 es).length - es.length) + es.length from by omega]
  rw [replay_logOf_full crc32 es hes _ 0 [] (by omega)]

theorem cacheAfter_cons (crc32 : List Nat → Nat) (t : Nat) (k v : List Nat)
    (es : List (Nat × List Nat × List Nat)) (pos : Nat) (c : StoreCache) :
    cacheAfter crc32 ((t, k, v) :: es) pos c =
      cacheAfter crc32 es (pos + (putRecord crc32 t k v).length)
        (insertA c k ⟨dbPath, (putRecord crc32 t k v).length, pos⟩) := rfl

theorem cacheAfter_append (crc32 : List Nat → Nat)
    (a b : List (Nat × List Nat × List Nat)) (pos : Nat) (c : StoreCache) :
    cacheAfter crc32 (a ++ b) pos c =
      cacheAfter crc32 b (pos + (logOf crc32 a).length) (cacheAfter crc32 a pos c) := by
  induction a generalizing pos c with
  | nil => simp [cacheAfter, logOf]
  | cons e es ih =>
    obtain ⟨t, k, v⟩ := e
    rw [List.cons_append, cacheAfter_cons, ih, cacheAfter_cons, logOf_consT]
    congr 1
    rw [List.length_append]
    omega

theorem lookup_cacheAfter_ne (crc32 : List Nat → Nat)
    (es : List (Nat × List Nat × List Nat)) (k : List Nat)
    (h : ∀ e ∈ es, e.2.1 ≠ k) (pos : Nat) (c : StoreCache) :
    lookupA (cacheAfter crc32 es pos c) k = lookupA c k := by
  induction es generalizing pos c with
  | nil => rfl
  | cons e es ih =>
    obtain ⟨t, k', v⟩ := e
    have hne : k' ≠ k := h _ (List.mem_cons_self _ _)
    simp only [cacheAfter]
    rw [ih (fun e he => h e (List.mem_cons_of_mem _ he))]
    exact lookupA_insertA_ne c k' k _ hne

theorem take4_putRecord (crc32 : List Nat → Nat) (t : Nat) (k v : List Nat) :
    (putRecord crc32 t k v).take 4 =
      u32be (crcOf crc32 (headerBytes (mkHeader t k v) ++ k ++ v)) := by
  simp [putRecord, u32be]

theorem dropValue_putRecord (crc32 : List Nat → Nat) (t : Nat) (k v : List Nat) :
    (putRecord crc32 t k v).drop (20 + k.length) = v := by
  have hform : putRecord crc32 t k v =
      (u32be (crcOf crc32 (headerBytes (mkHeader t k v) ++ k ++ v)) ++
        headerBytes (mkHeader t k v) ++ k) ++ v := by
    simp [putRecord]
  rw [hform]
  apply List.drop_left'
  simp [u32be, length_headerBytes]
  omega

theorem get_of_record (crc32 : List Nat → Nat) (s : VelesStore) (t : Nat)
    (k v l1 l2 : List Nat)
    (hk : k.length < 4294967296) (hv : v.length < 4294967296)
    (hdb : s.db = l1 ++ putRecord crc32 t k v ++ l2)
    (hlook : lookupA s.cache k =
      some ⟨dbPath, 20 + k.length + v.length, l1.length⟩) :
    s.get crc32 k = .ok v := by
  simp only [VelesStore.get, hlook]
  have hrl : (putRecord crc32 t k v).length = 20 + k.length + v.length :=
    length_putRecord crc32 t k v
  have hdb' : s.db = l1 ++ (putRecord crc32 t k v ++ l2) := by
    rw [hdb, List.append_assoc]
  have hbound : l1.length + (20 + k.length + v.length) ≤ s.db.length := by
    rw [hdb']
    simp [List.length_append, hrl]
  rw [if_pos hbound]
  have hdata : (s.db.drop l1.length).take (20 + k.length + v.length) =
      putRecord crc32 t k v := by
    rw [hdb', List.drop_left]
    exact List.take_left' hrl
  rw [hdata]
  rw [take4_putRecord, drop4_putRecord]
  rw [fromBE4_u32be _ (crcOf_lt _ _)]
  rw [if_neg (fun h => h rfl)]
  have htake16 : (headerBytes (mkHeader t k v) ++ k ++ v).take 16 =
      headerBytes (mkHeader t k v) := by
    rw [List.append_assoc]
    exact List.take_left' (length_headerBytes _)
  rw [htake16]
  simp only [deserialize_mkHeader]
  rw [mkHeader_key_size t k v hk]
  rw [show 4 + 16 + k.length = 20 + k.length from by omega,
    dropValue_putRecord]

/-- Claim C1: KV round-trip across reopen.  For any log built by a sequence
of puts whose total byte count stays below `2^32` (beyond that the scan's
`pos as u32` truncation makes the rebuilt index wrong, per the source), if
`Put(k, v)` succeeded and no later `Put` to `k` intervened, then reopening
the store (`VelesStore::new` replays the whole log to rebuild the index)
succeeds and `Get(k)` on the reopened store returns exactly `v`. -/
theorem put_reopen_get_roundtrip (crc32 : List Nat → Nat)
    (pre post : List (Nat × List Nat × List Nat)) (ts : Nat) (k v : List Nat)
    (hk : k.length < 4294967296) (hv : v.length < 4294967296)
    (hpre : ∀ e ∈ pre, sizedEntry e)
    (hpost : ∀ e ∈ post, sizedEntry e ∧ e.2.1 ≠ k)
    (hlog : (logOf crc32 (pre ++ (ts, k, v) :: post)).length < 4294967296) :
    ∃ s, VelesStore.new crc32
        (some (logOf crc32 (pre ++ (ts, k, v) :: post))) = .ok s ∧
      s.get crc32 k = .ok v := by
  have hes : ∀ e ∈ pre ++ (ts, k, v) :: post, sizedEntry e := by
    intro e he
    rcases List.mem_append.mp he with h1 | h2
    · exact hpre e h1
    · rcases List.mem_cons.mp h2 with h3 | h4
      · rw [h3]; exact ⟨hk, hv⟩
      · exact (hpost e h4).1
  refine ⟨_, new_logOf crc32 _ hes hlog, ?_⟩
  apply get_of_record crc32 _ ts k v (logOf crc32 pre) (logOf crc32 post)
    hk hv
  · show logOf crc32 (pre ++ (ts, k, v) :: post) =
      logOf crc32 pre ++ putRecord crc32 ts k v ++ logOf crc32 post
    rw [logOf_append, logOf_consT, ← List.append_assoc]
  · show lookupA (cacheAfter crc32 (pre ++ (ts, k, v) :: post) 0 []) k =
      some ⟨dbPath, 20 + k.length + v.length, (logOf crc32 pre).length⟩
    rw [cacheAfter_append, cacheAfter_cons]
    rw [lookup_cacheAfter_ne crc32 post k (fun e he => (hpost e he).2)]
    rw [lookupA_insertA_self]
    rw [length_putRecord]
    simp

/-- Claim C1 witness: one `Put("a", "1")`, reopen, `Get("a")` yields `"1"`. -/
theorem put_reopen_get_roundtrip_witness :
    ∃ s, VelesStore.new crcDemo (some (logOf crcDemo [(0, [97], [49])])) =
        .ok s ∧ s.get crcDemo [97] = .ok [49] :=
  put_reopen_get_roundtrip crcDemo [] [] 0 [97] [49]
    (by decide) (by decide) (by simp) (by simp) (by decide)

/-- Claim C7: replay corruption aborts open.  If the log contains, after any
prefix of valid records, a record whose stored 4-byte checksum differs from
the CRC32 recomputed over header+key+value, then `VelesStore::new` fails
with the corruption error and returns no store handle, regardless of what
follows in the file — a partially built index is never served. -/
theorem replay_crc_mismatch_aborts (crc32 : List Nat → Nat)
    (es : List (Nat × List Nat × List Nat)) (t : Nat) (k v : List Nat)
    (c : Nat) (tail : List Nat)
    (hes : ∀ e ∈ es, sizedEntry e)
    (hk : k.length < 4294967296) (hv : v.length < 4294967296)
    (hc : c < 4294967296)
    (hne : c ≠ crcOf crc32 (headerBytes (mkHeader t k v) ++ k ++ v)) :
    VelesStore.new crc32
      (some (logOf crc32 es ++
        (u32be c ++ (putRecord crc32 t k v).drop 4) ++ tail)) =
      .error VelesErr.CorruptedData := by
  rw [drop4_putRecord]
  set D := headerBytes (mkHeader t k v) ++ k ++ v with hD
  set db := logOf crc32 es ++ (u32be c ++ D) ++ tail with hdb
  simp only [VelesStore.new]
  have hlen : db.length = (logOf crc32 es).length + ((u32be c ++ D) ++ tail).length := by
    rw [hdb]
    simp [List.length_append]
  have hge := length_logOf_ge crc32 es
  have hrest : ((u32be c ++ D) ++ tail).length ≥ 1 := by
    simp [u32be, List.length_append]
  rw [show db.length = ((db.length - es.length - 1) + 1) + es.length from by omega]
  rw [show db = logOf crc32 es ++ ((u32be c ++ D) ++ tail) from by
    rw [hdb, List.append_assoc]]
  obtain ⟨pos2, cache2, hch⟩ := replay_logOf_chunk_any crc32 es hes
    (((logOf crc32 es ++ ((u32be c ++ D) ++ tail)).length - es.length - 1) + 1)
    0 [] ((u32be c ++ D) ++ tail)
  rw [hch]
  rw [replay_corrupt_record crc32 _ t _ k v tail _ c hk hv hc hne]

/-- Claim C7 witness: a single record whose stored checksum 0 differs from
the recomputed one. -/
theorem replay_crc_mismatch_aborts_witness :
    VelesStore.new crcDemo (some (logOf crcDemo [] ++
        (u32be 0 ++ (putRecord crcDemo 0 [97] [49]).drop 4) ++ [])) =
      .error VelesErr.CorruptedData :=
  replay_crc_mismatch_aborts crcDemo [] 0 [97] [49] 0 []
    (by simp) (by decide) (by decide) (by decide) (by decide)

theorem foldl_append_eq_flatten {α β : Type} (f : α → List β) (l : List α)
    (acc : List β) :
    l.foldl (fun a x => a ++ f x) acc = acc ++ (l.map f).flatten := by
  induction l generalizing acc with
  | nil => simp
  | cons x l ih => simp [ih]

theorem nodeContents_eq_lines (hashes : HashTable) (node : VelesNode) :
    nodeContents hashes node =
      (node.items.map (fun item => nodeLine hashes item)).flatten := by
  unfold nodeContents
  rw [foldl_append_eq_flatten]
  simp

/-- Claim C5: manifest directory hashing.  Whenever the resolution loop
resolves a directory node, the text it hashes is exactly the concatenation
of one line `"<child hash> <child name>\n"` per attached child in attachment
order (not sorted), and the hash recorded in the side table under the
directory's own name is the first 40 hex characters of the SHA-256 digest of
that text. -/
theorem manifest_dir_hash_step (shaText : List Char → List Nat)
    (fuel i : Nat) (nodes : List VelesNode) (hashes : HashTable)
    (refHash : List Char) (hne : nodes ≠ []) (hi : i < nodes.length)
    (hready : readyNode hashes (nodes.getD i ⟨[], [], none⟩) = true) :
    nodeContents hashes (nodes.getD i ⟨[], [], none⟩) =
      ((nodes.getD i ⟨[], [], none⟩).items.map
        (fun item => nodeLine hashes item)).flatten ∧
    lookupA (insertA hashes (nodes.getD i ⟨[], [], none⟩).name
        ((hexChars (shaText (nodeContents hashes
          (nodes.getD i ⟨[], [], none⟩)))).take 40))
        (nodes.getD i ⟨[], [], none⟩).name =
      some ((hexChars (shaText (nodeContents hashes
        (nodes.getD i ⟨[], [], none⟩)))).take 40) ∧
    manifestLoop shaText (fuel + 1) nodes i hashes refHash =
      manifestLoop shaText fuel (nodes.eraseIdx i)
        (if i = (nodes.eraseIdx i).length then 0 else i)
        (insertA hashes (nodes.getD i ⟨[], [], none⟩).name
          ((hexChars (shaText (nodeContents hashes
            (nodes.getD i ⟨[], [], none⟩)))).take 40))
        (if (nodes.eraseIdx i).length = 0
         then (hexChars (shaText (nodeContents hashes
           (nodes.getD i ⟨[], [], none⟩)))).take 40
         else refHash) := by
  refine ⟨nodeContents_eq_lines hashes _, lookupA_insertA_self _ _ _, ?_⟩
  obtain ⟨n, rest, rfl⟩ := List.exists_cons_of_ne_nil hne
  simp only [manifestLoop]
  rw [if_pos hready]

/-- Claim C5 witness: a one-directory, one-file node set, resolved in one
step. -/
theorem manifest_dir_hash_step_witness :
    nodeContents [] (nodesDemo.getD 0 ⟨[], [], none⟩) =
      ((nodesDemo.getD 0 ⟨[], [], none⟩).items.map
        (fun item => nodeLine [] item)).flatten ∧
    lookupA (insertA [] (nodesDemo.getD 0 ⟨[], [], none⟩).name
        ((hexChars (shaTextDemo (nodeContents []
          (nodesDemo.getD 0 ⟨[], [], none⟩)))).take 40))
        (nodesDemo.getD 0 ⟨[], [], none⟩).name =
      some ((hexChars (shaTextDemo (nodeContents []
        (nodesDemo.getD 0 ⟨[], [], none⟩)))).take 40) ∧
    manifestLoop shaTextDemo (0 + 1) nodesDemo 0 [] [] =
      manifestLoop shaTextDemo 0 (nodesDemo.eraseIdx 0)
        (if 0 = (nodesDemo.eraseIdx 0).length then 0 else 0)
        (insertA [] (nodesDemo.getD 0 ⟨[], [], none⟩).name
          ((hexChars (shaTextDemo (nodeContents []
            (nodesDemo.getD 0 ⟨[], [], none⟩)))).take 40))
        (if (nodesDemo.eraseIdx 0).length = 0
         then (hexChars (shaTextDemo (nodeContents []
           (nodesDemo.getD 0 ⟨[], [], none⟩)))).take 40
         else []) :=
  manifest_dir_hash_step shaTextDemo 0 0 nodesDemo [] []
    (by simp [nodesDemo]) (by simp [nodesDemo]) (by decide)

theorem length_hexChars (bs : List Nat) : (hexChars bs).length = 2 * bs.length := by
  induction bs with
  | nil => rfl
  | cons b bs ih => simp [hexChars] at ih ⊢; omega

/-- Claim C9, counterexample: `Object::finalize` does not return a 40-hex
short id — for a 32-byte digest it returns the full 64-character hex string
(`Ok(hex_digest)` with no truncation). -/
theorem finalize_returns_64_hex :
    (Object.finalize shaDemo gzDemo ⟨[]⟩ []).fst.length = 64 ∧
      ¬ (Object.finalize shaDemo gzDemo ⟨[]⟩ []).fst.length = 40 := by
  constructor
  · rfl
  · decide

/-- Claim C9, amended: both writers hash the uncompressed bytes, but only
`do_commit` returns the 40-hex short id (`hex_digest[..40]`); `Object::finalize`
returns the full 64-character hex digest while still deriving its object path
from the first 40 characters. -/
theorem short_id_lengths (sha256 compress : List Nat → List Nat)
    (content w : List Nat) (fs ofs : ObjFS)
    (h1 : (sha256 content).length = 32) (h2 : (sha256 w).length = 32) :
    (do_commit sha256 compress content fs).fst.length = 40 ∧
      (Object.finalize sha256 compress ⟨w⟩ ofs).fst.length = 64 := by
  constructor
  · show ((hexChars (sha256 content)).take 40).length = 40
    rw [List.length_take, length_hexChars, h1]
    decide
  · show (hexChars (sha256 w)).length = 64
    rw [length_hexChars, h2]

/-- Claim C9 witness: concrete digest of 32 bytes. -/
theorem short_id_lengths_witness :
    (do_commit shaDemo gzDemo [] []).fst.length = 40 ∧
      (Object.finalize shaDemo gzDemo ⟨[]⟩ []).fst.length = 64 :=
  short_id_lengths shaDemo gzDemo [] [] [] [] (by decide) (by decide)

/-- Claim C4, counterexample: in `Object::finalize` the write is not a no-op
when an object already exists at the derived destination path — the rename
is unconditional, so the existing object's content `[9]` is replaced by the
newly written content. -/
theorem finalize_overwrites_existing_object :
    lookupA (Object.finalize shaDemo gzDemo ⟨[]⟩ [(destDemo, [9])]).snd
        destDemo = some [] ∧
      ¬ lookupA (Object.finalize shaDemo gzDemo ⟨[]⟩ [(destDemo, [9])]).snd
        destDemo = some [9] := by
  constructor
  · decide
  · decide

/-- Claim C4, amended: writing the same byte content twice yields the same
id string both times (the id depends only on the content, for `do_commit`
and `Object::finalize` alike), and in `do_commit` the second write is a
filesystem no-op because of its existence check; `Object::finalize`,
however, has no such check and renames the temporary file unconditionally. -/
theorem object_write_idempotent_amended (sha256 compress : List Nat → List Nat)
    (content : List Nat) (fs : ObjFS) (w : List Nat) (ofs ofs2 : ObjFS) :
    (do_commit sha256 compress content
        ((do_commit sha256 compress content fs).snd)).fst =
      (do_commit sha256 compress content fs).fst ∧
    (do_commit sha256 compress content
        ((do_commit sha256 compress content fs).snd)).snd =
      (do_commit sha256 compress content fs).snd ∧
    (Object.finalize sha256 compress ⟨w⟩ ofs).fst =
      (Object.finalize sha256 compress ⟨w⟩ ofs2).fst := by
  refine ⟨rfl, ?_, rfl⟩
  by_cases h : (fsLookup fs (".veles/".data ++ (hexChars (sha256 content)).take 2 ++
      "/".data ++ ((hexChars (sha256 content)).drop 2).take 38)).isSome
  · simp only [do_commit, h, if_true]
  · simp only [do_commit, h, if_false]
    rw [if_pos]
    simp [fsLookup, lookupA_insertA_self]

theorem le_foldl_max (l : List Int) (a : Int) : a ≤ l.foldl max a := by
  induction l generalizing a with
  | nil => simp
  | cons x l ih => exact le_trans (le_max_left a x) (ih (max a x))

theorem mem_le_foldl_max (l : List Int) (a x : Int) (hx : x ∈ l) :
    x ≤ l.foldl max a := by
  induction l generalizing a with
  | nil => simp at hx
  | cons y l ih =>
    rcases List.mem_cons.mp hx with h | h
    · subst h
      exact le_trans (le_max_right a x) (le_foldl_max l (max a x))
    · exact ih (max a y) h

theorem pickLatest_append_max (l : List Changeset) (r : Changeset)
    (acc : Option Changeset)
    (hl : ∀ x ∈ l, x.changeset_id < r.changeset_id)
    (hacc : ∀ b, acc = some b → b.changeset_id < r.changeset_id) :
    pickLatest acc (l ++ [r]) = some r := by
  induction l generalizing acc with
  | nil =>
    cases acc with
    | none => simp [pickLatest]
    | some b =>
      simp [pickLatest]
      intro hle
      exact absurd hle (not_le.mpr (hacc b rfl))
  | cons x l ih =>
    have hx : x.changeset_id < r.changeset_id := hl _ (List.mem_cons_self _ _)
    have hl' : ∀ y ∈ l, y.changeset_id < r.changeset_id :=
      fun y hy => hl y (List.mem_cons_of_mem _ hy)
    cases acc with
    | none =>
      rw [List.cons_append]
      show pickLatest (some x) (l ++ [r]) = some r
      exact ih (some x) hl' (fun b hb => by cases hb; exact hx)
    | some b =>
      rw [List.cons_append]
      show pickLatest (some (if b.changeset_id < x.changeset_id then x else b))
        (l ++ [r]) = some r
      apply ih _ hl'
      intro b' hb'
      cases hb'
      by_cases hbx : b.changeset_id < x.changeset_id
      · rw [if_pos hbx]; exact hx
      · rw [if_neg hbx]; exact hacc b rfl

theorem get_latest_after_insert (t : ChangesetTable) (tid : Int)
    (r : Changeset) (hr : r.task_id = tid)
    (hmax : ∀ x ∈ t, x.changeset_id < r.changeset_id) :
    get_latest_changeset (t ++ [r]) tid = some r := by
  unfold get_latest_changeset
  rw [List.filter_append]
  have hfr : List.filter (fun c => decide (c.task_id = tid)) [r] = [r] := by
    simp [hr]
  rw [hfr]
  apply pickLatest_append_max
  · intro x hx
    exact hmax x (List.mem_of_mem_filter hx)
  · intro b hb
    cases hb

theorem nextRowId_gt (t : ChangesetTable) (x : Changeset) (hx : x ∈ t) :
    x.changeset_id < nextRowId t := by
  unfold nextRowId
  have : x.changeset_id ≤ (t.map (fun c => c.changeset_id)).foldl max 0 :=
    mem_le_foldl_max _ 0 _ (List.mem_map_of_mem _ hx)
  omega

/-- Claim C6: changeset chaining.  If two submits to the same task both
succeed, the second inserted changeset row's `previous_changeset` field
equals the `changeset_id` assigned to the first (the first submit's returned
row id), so changesets of a task form a singly-linked chain. -/
theorem submit_chains_previous (t : ChangesetTable) (tid : Int)
    (u1 d1 h1 u2 d2 h2 : String) :
    (submitSpec (submitSpec t tid u1 d1 h1).fst tid u2 d2 h2).fst =
      (submitSpec t tid u1 d1 h1).fst ++
        [{ changeset_id := (submitSpec (submitSpec t tid u1 d1 h1).fst tid u2 d2 h2).snd
           previous_changeset := (submitSpec t tid u1 d1 h1).snd
           task_id := tid, user := u2, description := d2, tree_hash := h2 }] := by
  have hfst : (submitSpec t tid u1 d1 h1).fst =
      t ++ [{ changeset_id := nextRowId t
              previous_changeset := (match get_latest_changeset t tid with
                | some c => c.changeset_id
                | none => 0)
              task_id := tid, user := u1, description := d1,
              tree_hash := h1 }] := rfl
  have hsnd : (submitSpec t tid u1 d1 h1).snd = nextRowId t := rfl
  have hlatest : get_latest_changeset ((submitSpec t tid u1 d1 h1).fst) tid =
      some { changeset_id := nextRowId t
             previous_changeset := (match get_latest_changeset t tid with
               | some c => c.changeset_id
               | none => 0)
             task_id := tid, user := u1, description := d1, tree_hash := h1 } := by
    rw [hfst]
    apply get_latest_after_insert
    · rfl
    · intro x hx
      exact nextRowId_gt t x hx
  show (submitSpec (submitSpec t tid u1 d1 h1).fst tid u2 d2 h2).fst = _
  conv_lhs => rw [submitSpec, hlatest]
  rw [hsnd]
  rfl
